import Mathlib

/-!
Verification of the go-bio storage substrate: a shallow embedding of the
mmap engine, the segment accessors and the snapshot transaction layer,
together with proofs about their specified behaviour.

Byte stores are lists of naturals (each element a byte value), offsets are
integers (Go `int64`), and lengths are naturals.  Fallible operations
return `Except` values or bespoke result types mirroring the Go
`(n, error)` conventions.
-/

namespace GoBio

/-- A raw byte store: Go `[]byte`, each element intended to be `< 256`. -/
abbrev Bytes := List Nat

/-- The bytes of the half-open window `[o, o+w)` of `s`
(Go `s[o : o+w]`, truncated at the end of `s`). -/
def readBytes (s : Bytes) (o w : Nat) : Bytes := (s.drop o).take w

/-- Overwrite the window starting at `o` with `b` (Go `copy(s[o:], b)`,
for the in-bounds case `o + len(b) ≤ len(s)`). -/
def writeBytes (s : Bytes) (o : Nat) (b : Bytes) : Bytes :=
  s.take o ++ b ++ s.drop (o + b.length)

theorem length_writeBytes (s b : Bytes) (o : Nat) (h : o + b.length ≤ s.length) :
    (writeBytes s o b).length = s.length := by
  simp [writeBytes]; omega

theorem length_readBytes (s : Bytes) (o w : Nat) (h : o + w ≤ s.length) :
    (readBytes s o w).length = w := by
  simp [readBytes]; omega

theorem getElem?_readBytes (s : Bytes) (o w i : Nat) :
    (readBytes s o w)[i]? = if i < w then s[o + i]? else none := by
  simp [readBytes, List.getElem?_take, List.getElem?_drop]

theorem getElem?_writeBytes (s b : Bytes) (o : Nat) (h : o + b.length ≤ s.length) (i : Nat) :
    (writeBytes s o b)[i]? =
      if i < o then s[i]? else if i < o + b.length then b[i - o]? else s[i]? := by
  have ho : (s.take o).length = o := by simp [List.length_take]; omega
  unfold writeBytes
  rw [List.append_assoc, List.getElem?_append, ho]
  by_cases h1 : i < o
  · rw [if_pos h1, if_pos h1, List.getElem?_take, if_pos h1]
  · rw [if_neg h1, if_neg h1, List.getElem?_append]
    by_cases h2 : i < o + b.length
    · rw [if_pos h2, if_pos (by omega)]
    · rw [if_neg h2, if_neg (by omega), List.getElem?_drop]
      congr 1
      omega

theorem readBytes_writeBytes_self (s b : Bytes) (o : Nat) (h : o + b.length ≤ s.length) :
    readBytes (writeBytes s o b) o b.length = b := by
  apply List.ext_getElem?
  intro i
  rw [getElem?_readBytes]
  by_cases hi : i < b.length
  · rw [if_pos hi, getElem?_writeBytes s b o h, if_neg (by omega), if_pos (by omega)]
    congr 1
    omega
  · rw [if_neg hi, eq_comm]
    exact List.getElem?_eq_none (by omega)

theorem readBytes_writeBytes_of_le (s b : Bytes) (o x w : Nat)
    (h : o + b.length ≤ s.length) (hle : x + w ≤ o) :
    readBytes (writeBytes s o b) x w = readBytes s x w := by
  apply List.ext_getElem?
  intro i
  rw [getElem?_readBytes, getElem?_readBytes]
  by_cases hi : i < w
  · rw [if_pos hi, if_pos hi, getElem?_writeBytes s b o h, if_pos (by omega)]
  · rw [if_neg hi, if_neg hi]

theorem readBytes_writeBytes_of_ge (s b : Bytes) (o x w : Nat)
    (h : o + b.length ≤ s.length) (hge : o + b.length ≤ x) :
    readBytes (writeBytes s o b) x w = readBytes s x w := by
  apply List.ext_getElem?
  intro i
  rw [getElem?_readBytes, getElem?_readBytes]
  by_cases hi : i < w
  · rw [if_pos hi, if_pos hi, getElem?_writeBytes s b o h,
      if_neg (by omega), if_neg (by omega)]
  · rw [if_neg hi, if_neg hi]

theorem writeBytes_writeBytes_self (s b c : Bytes) (o : Nat)
    (h : o + b.length ≤ s.length) (hlen : b.length = c.length) :
    writeBytes (writeBytes s o b) o c = writeBytes s o c := by
  have hc : o + c.length ≤ s.length := by omega
  apply List.ext_getElem?
  intro i
  rw [getElem?_writeBytes _ c o (by rw [length_writeBytes s b o h]; omega),
    getElem?_writeBytes s c o hc]
  by_cases h1 : i < o
  · rw [if_pos h1, if_pos h1, getElem?_writeBytes s b o h, if_pos h1]
  · by_cases h2 : i < o + c.length
    · rw [if_neg h1, if_neg h1, if_pos h2, if_pos h2]
    · rw [if_neg h1, if_neg h1, if_neg h2, if_neg h2,
        getElem?_writeBytes s b o h, if_neg h1, if_neg (by omega)]

theorem writeBytes_readBytes_self (s : Bytes) (o w : Nat) (h : o + w ≤ s.length) :
    writeBytes s o (readBytes s o w) = s := by
  have hl : (readBytes s o w).length = w := length_readBytes s o w h
  apply List.ext_getElem?
  intro i
  rw [getElem?_writeBytes s _ o (by omega)]
  rw [hl]
  by_cases h1 : i < o
  · rw [if_pos h1]
  · by_cases h2 : i < o + w
    · rw [if_neg h1, if_pos h2, getElem?_readBytes, if_pos (by omega)]
      congr 1
      omega
    · rw [if_neg h1, if_neg h2]

theorem writeBytes_comm (s b c : Bytes) (x y : Nat)
    (hxy : x + b.length ≤ y) (hy : y + c.length ≤ s.length) :
    writeBytes (writeBytes s x b) y c = writeBytes (writeBytes s y c) x b := by
  have hx : x + b.length ≤ s.length := by omega
  have h1 : y + c.length ≤ (writeBytes s x b).length := by
    rw [length_writeBytes s b x hx]; omega
  have h2 : x + b.length ≤ (writeBytes s y c).length := by
    rw [length_writeBytes s c y hy]; omega
  apply List.ext_getElem?
  intro i
  rw [getElem?_writeBytes (writeBytes s x b) c y h1,
    getElem?_writeBytes (writeBytes s y c) b x h2,
    getElem?_writeBytes s b x hx, getElem?_writeBytes s c y hy]
  split_ifs <;> first | rfl | omega

theorem readBytes_split (s : Bytes) (o w1 w2 : Nat) (h : o + w1 ≤ s.length) :
    readBytes s o (w1 + w2) = readBytes s o w1 ++ readBytes s (o + w1) w2 := by
  apply List.ext_getElem?
  intro i
  rw [List.getElem?_append, length_readBytes s o w1 h,
    getElem?_readBytes, getElem?_readBytes, getElem?_readBytes]
  split_ifs <;> first | rfl | omega | (congr 1; omega)

theorem mem_writeBytes (s b : Bytes) (o : Nat) (y : Nat)
    (hy : y ∈ writeBytes s o b) : y ∈ s ∨ y ∈ b := by
  unfold writeBytes at hy
  rcases List.mem_append.mp hy with h | h
  · rcases List.mem_append.mp h with h | h
    · exact Or.inl (List.mem_of_mem_take h)
    · exact Or.inr h
  · exact Or.inl (List.mem_of_mem_drop h)

/-! ### Fixed-width integer encodings

Go `encoding/binary`: `binary.BigEndian.PutUintN` stores the most
significant byte first; `binary.LittleEndian` stores it last. -/

/-- Big-endian encoding of `v` on `w` bytes (Go `binary.BigEndian.PutUintN`;
only the low `8*w` bits of `v` are stored). -/
def putBE : Nat → Nat → Bytes
  | 0, _ => []
  | w + 1, v => v / 256 ^ w % 256 :: putBE w v

/-- Big-endian decoding (Go `binary.BigEndian.UintN`). -/
def decBE : Bytes → Nat
  | [] => 0
  | a :: l => a * 256 ^ l.length + decBE l

/-- Little-endian decoding (Go `binary.LittleEndian.UintN`). -/
def decLE : Bytes → Nat
  | [] => 0
  | a :: l => a + 256 * decLE l

theorem length_putBE (w v : Nat) : (putBE w v).length = w := by
  induction w generalizing v with
  | zero => rfl
  | succ w ih => simp [putBE, ih]

theorem mem_putBE_lt (w v y : Nat) : y ∈ putBE w v → y < 256 := by
  induction w generalizing v with
  | zero => intro hy; simp [putBE] at hy
  | succ w ih =>
    intro hy
    rcases List.mem_cons.mp hy with h | h
    · subst h; exact Nat.mod_lt _ (by norm_num)
    · exact ih v h

theorem decBE_putBE (w v : Nat) : decBE (putBE w v) = v % 256 ^ w := by
  induction w generalizing v with
  | zero => simp [putBE, decBE, Nat.mod_one]
  | succ w ih =>
    rw [putBE, decBE, length_putBE, ih]
    rw [pow_succ, Nat.mod_mul]
    ring

theorem decBE_lt (b : Bytes) : (∀ y ∈ b, y < 256) → decBE b < 256 ^ b.length := by
  induction b with
  | nil => intro _; simp [decBE]
  | cons a l ih =>
    intro hb
    have ha : a < 256 := hb a (List.mem_cons_self a l)
    have hl : decBE l < 256 ^ l.length := ih (fun y hy => hb y (List.mem_cons_of_mem a hy))
    rw [decBE, List.length_cons, pow_succ]
    calc a * 256 ^ l.length + decBE l < (a + 1) * 256 ^ l.length := by
          rw [Nat.add_mul, Nat.one_mul]; omega
      _ ≤ 256 * 256 ^ l.length := Nat.mul_le_mul_right _ (by omega)
      _ = 256 ^ l.length * 256 := by ring

theorem putBE_mod (w v : Nat) : putBE w (v % 256 ^ w) = putBE w v := by
  induction w generalizing v with
  | zero => rfl
  | succ w ih =>
    rw [putBE, putBE]
    congr 1
    · rw [pow_succ, Nat.mod_mul_right_div_self]
      exact Nat.mod_mod_of_dvd _ (dvd_refl 256)
    · calc putBE w (v % 256 ^ (w + 1))
          = putBE w (v % 256 ^ (w + 1) % 256 ^ w) := (ih _).symm
        _ = putBE w (v % 256 ^ w) := by
            rw [Nat.mod_mod_of_dvd _ (pow_dvd_pow 256 (Nat.le_succ w))]
        _ = putBE w v := ih v

theorem putBE_congr (w a b : Nat) (h : a % 256 ^ w = b % 256 ^ w) :
    putBE w a = putBE w b := by
  rw [← putBE_mod w a, h, putBE_mod w b]

theorem putBE_decBE (b : Bytes) : (∀ y ∈ b, y < 256) → putBE b.length (decBE b) = b := by
  induction b with
  | nil => intro _; rfl
  | cons a l ih =>
    intro hb
    have ha : a < 256 := hb a (List.mem_cons_self a l)
    have hbl : ∀ y ∈ l, y < 256 := fun y hy => hb y (List.mem_cons_of_mem a hy)
    have hl : decBE l < 256 ^ l.length := decBE_lt l hbl
    have hM : 0 < 256 ^ l.length := Nat.pos_pow_of_pos _ (by norm_num)
    rw [List.length_cons, putBE, decBE]
    congr 1
    · rw [Nat.add_comm, Nat.mul_comm, Nat.add_mul_div_left _ _ hM,
        Nat.div_eq_of_lt hl, Nat.zero_add, Nat.mod_eq_of_lt ha]
    · have hmod : (a * 256 ^ l.length + decBE l) % 256 ^ l.length
          = decBE l % 256 ^ l.length := by
        rw [Nat.add_comm, Nat.mul_comm, Nat.add_mul_mod_self_left]
      calc putBE l.length (a * 256 ^ l.length + decBE l)
          = putBE l.length (decBE l) := putBE_congr _ _ _ hmod
        _ = l := ih hbl

/-! ### The byte-store driver

`segment.Segment` operates over any `ReadWriterAt` driver.  The drivers the
repository itself supplies (`mmap.Mapping`, the transaction snapshot) use the
full-reject bounds policy of `mmap.go` (`Mapping.access` / `Mapping.ReadAt` /
`Mapping.WriteAt`): an out-of-range request fails without any partial copy.
`storeReadAt`/`storeWriteAt` embed that driver over a plain byte store. -/

/-- Go `math.MaxInt64`, also `mmap.MaxInt` on amd64. -/
def maxInt64 : Int := 2 ^ 63 - 1

/-- Go `mmap.MaxInt` (amd64) as a length bound. -/
def maxIntNat : Nat := 2 ^ 63 - 1

inductive DriverErr where
  | outOfBounds
deriving DecidableEq

/-- Driver read: `Mapping.access` bounds check, then a full copy of
`len` bytes from `offset` (from `mmap.go` `ReadAt`). -/
def storeReadAt (mem : Bytes) (len : Nat) (offset : Int) : Except DriverErr Bytes :=
  if offset < 0 ∨ offset > maxInt64 - len ∨ offset + len > mem.length then
    .error .outOfBounds
  else
    .ok (readBytes mem offset.toNat len)

/-- Driver write: `Mapping.access` bounds check, then a full overwrite of
`buf` at `offset` (from `mmap.go` `WriteAt`). -/
def storeWriteAt (mem : Bytes) (buf : Bytes) (offset : Int) : Except DriverErr Bytes :=
  if offset < 0 ∨ offset > maxInt64 - buf.length ∨ offset + buf.length > mem.length then
    .error .outOfBounds
  else
    .ok (writeBytes mem offset.toNat buf)

/-! ### Driver-based segment (src/segment/segment.go)

The supported slot types are uint8/uint16/uint32/uint64; all multi-byte
values are big-endian.  Each operation walks its argument list
sequentially, advancing the offset by the slot width. -/

/-- A slot type of the segment (destination of `Get`). -/
inductive Ty where
  | u8 | u16 | u32 | u64
deriving DecidableEq

/-- Go constants `Uint8Size` .. `Uint64Size`. -/
def Ty.size : Ty → Nat
  | u8 => 1
  | u16 => 2
  | u32 => 4
  | u64 => 8

/-- A typed slot value (an element of the variadic `v ...interface\x7b\x7d`
list); the payload is the numeral of the Go `uintN`, so it is used modulo
`2^N` everywhere the Go type system would truncate. -/
inductive Val where
  | u8 (v : Nat)
  | u16 (v : Nat)
  | u32 (v : Nat)
  | u64 (v : Nat)
deriving DecidableEq

def Val.ty : Val → Ty
  | u8 _ => .u8
  | u16 _ => .u16
  | u32 _ => .u32
  | u64 _ => .u64

def Val.size (v : Val) : Nat := v.ty.size

def Val.val : Val → Nat
  | u8 v => v
  | u16 v => v
  | u32 v => v
  | u64 v => v

/-- The modulus of a slot: `2 ^ (8 * width)`. -/
def Val.M (v : Val) : Nat := 256 ^ v.size

namespace Segment

/-- `Segment.Get`: sequentially read big-endian values of the given types
starting from `offset` (src/segment/segment.go). -/
def Get (mem : Bytes) (offset : Int) : List Ty → Except DriverErr (List Nat)
  | [] => .ok []
  | t :: rest =>
    match storeReadAt mem t.size offset with
    | .error e => .error e
    | .ok buf =>
      match Get mem (offset + t.size) rest with
      | .error e => .error e
      | .ok vs => .ok (decBE buf :: vs)

/-- `Segment.Set`: sequentially write the given values big-endian starting
from `offset` (src/segment/segment.go). -/
def Set (mem : Bytes) (offset : Int) : List Val → Except DriverErr Bytes
  | [] => .ok mem
  | d :: rest =>
    match storeWriteAt mem (putBE d.size (d.val % d.M)) offset with
    | .error e => .error e
    | .ok mem1 => Set mem1 (offset + d.size) rest

/-- `Segment.Inc`: per slot, read the stored big-endian value, add the
delta with `uintN` wrap-around, and write it back
(src/segment/segment.go). -/
def Inc (mem : Bytes) (offset : Int) : List Val → Except DriverErr Bytes
  | [] => .ok mem
  | d :: rest =>
    match storeReadAt mem d.size offset with
    | .error e => .error e
    | .ok buf =>
      match storeWriteAt mem (putBE d.size (decBE buf + d.val % d.M)) offset with
      | .error e => .error e
      | .ok mem1 => Inc mem1 (offset + d.size) rest

/-- `Segment.Dec`: per slot, read the stored big-endian value, subtract the
delta with `uintN` wrap-around, and write it back
(src/segment/segment.go). -/
def Dec (mem : Bytes) (offset : Int) : List Val → Except DriverErr Bytes
  | [] => .ok mem
  | d :: rest =>
    match storeReadAt mem d.size offset with
    | .error e => .error e
    | .ok buf =>
      match storeWriteAt mem (putBE d.size (decBE buf + (d.M - d.val % d.M))) offset with
      | .error e => .error e
      | .ok mem1 => Dec mem1 (offset + d.size) rest

end Segment

/-! ### Pointer-based segment and `ScanUint`

The second segment implementation holds `(offset, data)` directly; its
`ScanUint` does its own per-slot bounds checks and decodes little-endian. -/

inductive ScanErr where
  | badValue
  | outOfBounds
deriving DecidableEq

/-- The pointer-based `segment.Segment`: a base offset plus a raw byte
range. -/
structure PtrSegment where
  offset : Int
  data : Bytes
deriving DecidableEq

/-- The sweep inside `ScanUint`, over the already-rebased offset. -/
def scanUintLoop (data : Bytes) (offset : Int) : List Ty → Except ScanErr (List Nat)
  | [] => .ok []
  | t :: rest =>
    if offset < 0 ∨ offset > maxInt64 - t.size ∨ offset + t.size > data.length then
      .error .outOfBounds
    else
      match scanUintLoop data (offset + t.size) rest with
      | .error e => .error e
      | .ok vs => .ok (decLE (readBytes data offset.toNat t.size) :: vs)

/-- `Segment.ScanUint` of the pointer-based segment: reject offsets below
the segment base, rebase, then sequentially decode little-endian values. -/
def PtrSegment.ScanUint (seg : PtrSegment) (offset : Int) (ts : List Ty) :
    Except ScanErr (List Nat) :=
  if offset < seg.offset then .error .outOfBounds
  else scanUintLoop seg.data (offset - seg.offset) ts

/-! ### Transaction layer (package transaction, src/unnamed/part_002)

A transaction snapshots `original[lowOffset:highOffset]` at `Begin`; reads
and writes during the open phase touch only the snapshot; `Commit` copies
the snapshot back, `Rollback` discards it.  A `none` snapshot is the
closed state (Go `tx.snapshot == nil`). -/

inductive TxErr where
  | closed
  | outOfBounds
deriving DecidableEq

structure Tx where
  original : Bytes
  lowOffset : Int
  highOffset : Int
  snapshot : Option Bytes
deriving DecidableEq

/-- `transaction.Begin`: validate the requested window against `data`,
then snapshot `data[offset : offset+length]`. -/
def Tx.Begin (data : Bytes) (offset : Int) (length : Nat) : Except TxErr Tx :=
  if length = 0 ∨ length > maxIntNat then .error .outOfBounds
  else if offset < 0 ∨ offset ≥ data.length ∨ offset > maxInt64 - length then
    .error .outOfBounds
  else if offset + length > data.length then .error .outOfBounds
  else
    .ok { original := data, lowOffset := offset, highOffset := offset + length,
          snapshot := some (readBytes data offset.toNat length) }

/-- `Tx.offset`: check the requested range and rebase the absolute offset
to a snapshot index.  This is the source bounds check verbatim: after
subtracting `lowOffset` the end of the range is compared against
`highOffset` (not against the window length). -/
def Tx.offset (tx : Tx) (offset : Int) (length : Nat) : Except TxErr Int :=
  if offset < tx.lowOffset then .error .outOfBounds
  else
    let off := offset - tx.lowOffset
    if off > maxInt64 - length ∨ off + length > tx.highOffset then .error .outOfBounds
    else .ok off

/-- Result of `Tx.ReadAt`: the Go `(n, error)` pair, with `fault`
standing for a slice-bounds panic in `tx.snapshot[off:]`. -/
inductive TxRead where
  | err (e : TxErr)
  | fault
  | bytes (n : Nat) (buf : Bytes)
deriving DecidableEq

/-- `Tx.ReadAt`: closed check, `Tx.offset` check, then
`copy(buf, tx.snapshot[off:])`, returning the copied count with no
error. -/
def Tx.ReadAt (tx : Tx) (buf : Bytes) (offset : Int) : TxRead :=
  match tx.snapshot with
  | none => .err .closed
  | some snap =>
    match Tx.offset tx offset buf.length with
    | .error e => .err e
    | .ok off =>
      if snap.length < off.toNat then .fault
      else
        let n := min buf.length (snap.length - off.toNat)
        .bytes n (readBytes snap off.toNat buf.length ++ buf.drop n)

/-- Result of `Tx.WriteAt` / `Tx.Commit` style calls. -/
inductive TxWrite where
  | err (e : TxErr)
  | fault
  | count (n : Nat)
deriving DecidableEq

/-- `Tx.WriteAt`: closed check, `Tx.offset` check, then
`copy(tx.snapshot[off:], buf)`, returning the copied count with no
error. -/
def Tx.WriteAt (tx : Tx) (buf : Bytes) (offset : Int) : TxWrite × Tx :=
  match tx.snapshot with
  | none => (.err .closed, tx)
  | some snap =>
    match Tx.offset tx offset buf.length with
    | .error e => (.err e, tx)
    | .ok off =>
      if snap.length < off.toNat then (.fault, tx)
      else
        let n := min buf.length (snap.length - off.toNat)
        (.count n,
          { tx with
            snapshot := some (snap.take off.toNat ++ buf.take n ++ snap.drop (off.toNat + n)) })

/-- Result of a terminal transition (`Commit` / `Rollback`). -/
inductive TxTerm where
  | err (e : TxErr)
  | fault
  | ok
deriving DecidableEq

/-- `Tx.Commit`: `copy(tx.original[low:high], tx.snapshot)` then close;
`fault` stands for the slice-bounds panic of `original[low:high]`. -/
def Tx.Commit (tx : Tx) : TxTerm × Tx :=
  match tx.snapshot with
  | none => (.err .closed, tx)
  | some snap =>
    if tx.lowOffset < 0 ∨ tx.highOffset < tx.lowOffset ∨
        (tx.original.length : Int) < tx.highOffset then
      (.fault, tx)
    else
      let n := min (tx.highOffset - tx.lowOffset).toNat snap.length
      (.ok,
        { tx with
          original := tx.original.take tx.lowOffset.toNat ++ snap.take n ++
            tx.original.drop (tx.lowOffset.toNat + n),
          snapshot := none })

/-- `Tx.Rollback`: release the snapshot without touching the original. -/
def Tx.Rollback (tx : Tx) : TxTerm × Tx :=
  match tx.snapshot with
  | none => (.err .closed, tx)
  | some _ => (.ok, { tx with snapshot := none })

/-! ### Memory mapping (package mmap; mmap.go and mmap_linux_amd64.go)

A closed mapping has `memory = none` (Go `m.memory == nil` after
`*m = Mapping\x7b\x7d`).  OS syscalls are modelled as always succeeding and
are recorded in a trace so that release behaviour is observable. -/

inductive MmapErr where
  | badLength
  | badMode
  | badOffset
  | closed
  | alreadyLocked
  | notLocked
  | readOnly
  | outOfBounds
deriving DecidableEq

/-- The syscalls a mapping can issue on its aligned range. -/
inductive Syscall where
  | mlock
  | munlock
  | msync
  | munmap
deriving DecidableEq

structure Mapping where
  writable : Bool
  executable : Bool
  locked : Bool
  memory : Option Bytes
deriving DecidableEq

/-- Result of `Mapping.ReadAt`: the Go `(n, error)` pair with the read
bytes. -/
inductive MRead where
  | err (e : MmapErr)
  | bytes (n : Nat) (buf : Bytes)
deriving DecidableEq

/-- Result of `Mapping.WriteAt`. -/
inductive MWrite where
  | err (e : MmapErr)
  | count (n : Nat)
deriving DecidableEq

/-- `Mapping.ReadAt` (mmap.go): closed check, `access` bounds check, full
copy. -/
def Mapping.ReadAt (m : Mapping) (buf : Bytes) (offset : Int) : MRead :=
  match m.memory with
  | none => .err .closed
  | some mem =>
    match storeReadAt mem buf.length offset with
    | .error _ => .err .outOfBounds
    | .ok out => .bytes buf.length out

/-- `Mapping.WriteAt` (mmap.go): closed check, read-only check, `access`
bounds check, full copy into the mapped memory. -/
def Mapping.WriteAt (m : Mapping) (buf : Bytes) (offset : Int) : MWrite × Mapping :=
  match m.memory with
  | none => (.err .closed, m)
  | some mem =>
    if !m.writable then (.err .readOnly, m)
    else
      match storeWriteAt mem buf offset with
      | .error _ => (.err .outOfBounds, m)
      | .ok mem1 => (.count buf.length, { m with memory := some mem1 })

/-- `Mapping.Lock` (mmap_linux_amd64.go), with `mlock` succeeding. -/
def Mapping.Lock (m : Mapping) : Except MmapErr Unit × Mapping × List Syscall :=
  match m.memory with
  | none => (.error .closed, m, [])
  | some _ =>
    if m.locked then (.error .alreadyLocked, m, [])
    else (.ok (), { m with locked := true }, [.mlock])

/-- `Mapping.Unlock` (mmap_linux_amd64.go), with `munlock` succeeding. -/
def Mapping.Unlock (m : Mapping) : Except MmapErr Unit × Mapping × List Syscall :=
  match m.memory with
  | none => (.error .closed, m, [])
  | some _ =>
    if !m.locked then (.error .notLocked, m, [])
    else (.ok (), { m with locked := false }, [.munlock])

/-- `Mapping.Sync` (mmap_linux_amd64.go), with `msync` succeeding. -/
def Mapping.Sync (m : Mapping) : Except MmapErr Unit × Mapping × List Syscall :=
  match m.memory with
  | none => (.error .closed, m, [])
  | some _ =>
    if !m.writable then (.error .readOnly, m, [])
    else (.ok (), m, [.msync])

/-- `Mapping.Close` (mmap_linux_amd64.go): on an open mapping, sync if
writable, unlock if locked, unmap, then zero every field; on a closed
mapping, report `closed` and do nothing. -/
def Mapping.Close (m : Mapping) : Except MmapErr Unit × Mapping × List Syscall :=
  match m.memory with
  | none => (.error .closed, m, [])
  | some _ =>
    (.ok (), { writable := false, executable := false, locked := false, memory := none },
      (if m.writable then [Syscall.msync] else []) ++
      (if m.locked then [Syscall.munlock] else []) ++ [Syscall.munmap])

/-- Result of `Mapping.Begin`. -/
inductive MBegin where
  | merr (e : MmapErr)
  | txerr (e : TxErr)
  | tx (t : Tx)
deriving DecidableEq

/-- `Mapping.Begin` (mmap.go): closed check, read-only check, then
`transaction.Begin` over the mapped memory. -/
def Mapping.Begin (m : Mapping) (offset : Int) (length : Nat) : MBegin :=
  match m.memory with
  | none => .merr .closed
  | some mem =>
    if !m.writable then .merr .readOnly
    else
      match Tx.Begin mem offset length with
      | .error e => .txerr e
      | .ok t => .tx t

/-! ### `mmap.Open` on linux/amd64

`Open` validates the arguments, chooses protection and sharing flags, and
issues the `mmap` syscall for the page-aligned range; the record below is
the request it hands to the kernel. -/

def ModeReadOnly : Int := 0
def ModeReadWrite : Int := 1
def ModeWriteCopy : Int := 2

def FlagExecutable : Nat := 1

def PROT_READ : Nat := 1
def PROT_WRITE : Nat := 2
def PROT_EXEC : Nat := 4
def MAP_SHARED : Nat := 1
def MAP_PRIVATE : Nat := 2

def pageSize : Int := 4096

inductive OpenErr where
  | badOffset
  | badLength
  | badMode
deriving DecidableEq

/-- The `mmap` syscall request produced by a successful validation. -/
structure MmapCall where
  prot : Nat
  mmapFlags : Nat
  outerOffset : Int
  innerOffset : Int
  alignedLength : Nat
  writable : Bool
  executable : Bool
deriving DecidableEq

/-- `mmap.Open` (mmap_linux_amd64.go) up to the `mmap` syscall: the
validations, the protection/sharing selection — including the source line
`flags = syscall.MAP_PRIVATE` which reassigns the `flags` parameter, not
the `mmapFlags` local — and the page-alignment arithmetic. -/
def Open (offset : Int) (length : Nat) (mode : Int) (flags : Nat) :
    Except OpenErr MmapCall :=
  if offset < 0 then .error .badOffset
  else if length > maxIntNat then .error .badLength
  else
    let prot0 := PROT_READ
    let mmapFlags := MAP_SHARED
    if mode < ModeReadOnly ∨ mode > ModeWriteCopy then .error .badMode
    else
      let writable := decide (mode > ModeReadOnly)
      let prot1 := if mode > ModeReadOnly then prot0 + PROT_WRITE else prot0
      let flags1 := if mode = ModeWriteCopy then MAP_PRIVATE else flags
      let executable := decide (Nat.land flags1 FlagExecutable ≠ 0)
      let prot2 := if Nat.land flags1 FlagExecutable ≠ 0 then prot1 + PROT_EXEC else prot1
      let outerOffset := offset / pageSize
      let innerOffset := offset % pageSize
      .ok { prot := prot2, mmapFlags := mmapFlags, outerOffset := outerOffset,
            innerOffset := innerOffset, alignedLength := innerOffset.toNat + length,
            writable := writable, executable := executable }

/-- Modelled from the spec: POSIX sharing semantics of `msync` — writes
through a `MAP_SHARED` view are carried to the backing file when it is
synchronized, writes through a `MAP_PRIVATE` (copy-on-write) view are
visible to the mapping only and never reach the file. -/
def fileAfterSync (file : Bytes) (call : MmapCall) (mem : Bytes) (fileOffset : Nat) : Bytes :=
  if call.mmapFlags = MAP_PRIVATE then file else writeBytes file fileOffset mem

/-! ### Claims -/

/-- C1: the claim states that `Tx.ReadAt`/`Tx.WriteAt` reject — performing
no copy and not faulting — every request whose byte range
`[offset, offset+len(buf))` does not fit within `[lowOffset, highOffset)`.
The code violates this: `Tx.offset` compares the already-rebased offset
plus length against `highOffset` instead of against the window length, so
for a transaction with `lowOffset = 2`, `highOffset = 4` over
`[10,11,12,13]`, a 3-byte read at offset 3 (range `[3,6)` ⊄ `[2,4)`) is
accepted and returns a 1-byte partial copy with no error, and a 0-byte
read at offset 5 faults on `tx.snapshot[off:]`. -/
theorem tx_offset_check_accepts_out_of_window_request :
    Tx.Begin [10, 11, 12, 13] 2 2 =
      .ok { original := [10, 11, 12, 13], lowOffset := 2, highOffset := 4,
            snapshot := some [12, 13] }
    ∧ (match Tx.Begin [10, 11, 12, 13] 2 2 with
        | .ok tx => Tx.ReadAt tx [0, 0, 0] 3
        | .error e => .err e) = .bytes 1 [13, 0, 0]
    ∧ (match Tx.Begin [10, 11, 12, 13] 2 2 with
        | .ok tx => Tx.ReadAt tx [] 5
        | .error e => .err e) = .fault := by
  refine ⟨rfl, rfl, rfl⟩

/-- C2: the claim states that the POSIX `Open` selects a `MAP_PRIVATE`
mapping for `ModeWriteCopy`, so a write followed by `Sync` leaves the
file unchanged.  The linux code assigns `syscall.MAP_PRIVATE` to the
`flags` parameter instead of the `mmapFlags` local, so the `mmap` request
carries `MAP_SHARED`; under the POSIX propagation model a write through
the mapping then reaches the file after a sync. -/
theorem writeCopy_open_requests_shared_mapping :
    (Open 0 5 ModeWriteCopy 0).map MmapCall.mmapFlags = .ok MAP_SHARED
    ∧ MAP_SHARED ≠ MAP_PRIVATE
    ∧ (match Open 0 5 ModeWriteCopy 0 with
        | .ok call => fileAfterSync [0, 0, 0, 0, 0] call [72, 69, 76, 76, 79] 0
        | .error _ => []) = [72, 69, 76, 76, 79] := by
  refine ⟨rfl, by decide, rfl⟩

/-- C3 counterexample: the claim states that `Open` with zero length
always fails with `BadOffset`/`BadLength` and never proceeds to map; on
the code, `Open 0 0 ModeReadWrite 0` passes validation and reaches the
`mmap` request (and no file-size check exists at all). -/
theorem open_zero_length_reaches_mmap :
    (Open 0 0 ModeReadWrite 0).isOk = true := rfl

/-- C3 (amended): `Open` fails with `BadOffset` exactly when the offset is
negative, with `BadLength` exactly when the length exceeds `MaxInt`, and
with `BadMode` for a mode outside `ReadOnly..WriteCopy`, never reaching
the `mmap` call in those cases; it performs no zero-length and no
backing-file-size validation — every other argument combination proceeds
to the mapping request. -/
theorem open_validation (offset : Int) (length : Nat) (mode : Int) (flags : Nat) :
    (offset < 0 → Open offset length mode flags = .error .badOffset)
    ∧ (0 ≤ offset → length > maxIntNat →
        Open offset length mode flags = .error .badLength)
    ∧ (0 ≤ offset → length ≤ maxIntNat →
        (mode < ModeReadOnly ∨ mode > ModeWriteCopy) →
        Open offset length mode flags = .error .badMode)
    ∧ (0 ≤ offset → length ≤ maxIntNat →
        ModeReadOnly ≤ mode → mode ≤ ModeWriteCopy →
        (Open offset length mode flags).isOk = true) := by
  unfold Open ModeReadOnly ModeWriteCopy maxIntNat
  refine ⟨fun h => ?_, fun h1 h2 => ?_, fun h1 h2 h3 => ?_, fun h1 h2 h3 h4 => ?_⟩ <;>
    split_ifs <;> first | rfl | omega

/-- C3 witness: the amended theorem applied at concrete arguments. -/
theorem open_validation_witness :
    ((-3 : Int) < 0 → Open (-3) 5 ModeReadWrite 0 = .error .badOffset)
    ∧ (0 ≤ (-3 : Int) → 5 > maxIntNat → Open (-3) 5 ModeReadWrite 0 = .error .badLength)
    ∧ (0 ≤ (-3 : Int) → 5 ≤ maxIntNat →
        (ModeReadWrite < ModeReadOnly ∨ ModeReadWrite > ModeWriteCopy) →
        Open (-3) 5 ModeReadWrite 0 = .error .badMode)
    ∧ (0 ≤ (-3 : Int) → 5 ≤ maxIntNat →
        ModeReadOnly ≤ ModeReadWrite → ModeReadWrite ≤ ModeWriteCopy →
        (Open (-3) 5 ModeReadWrite 0).isOk = true) :=
  open_validation (-3) 5 ModeReadWrite 0

/-- C5: a transaction read never consults `original`; it serves the bytes
snapshotted at `Begin` time.  Mutating the original store after `Begin`
(replacing the `original` data) leaves every `ReadAt` result unchanged,
and the snapshot holds exactly `data[offset : offset+length]` as copied at
`Begin`. -/
theorem tx_reads_snapshot_not_original (data mutated : Bytes) (offset : Int)
    (length : Nat) (tx : Tx) (h : Tx.Begin data offset length = .ok tx)
    (buf : Bytes) (o : Int) :
    Tx.ReadAt { tx with original := mutated } buf o = Tx.ReadAt tx buf o
    ∧ tx.snapshot = some (readBytes data offset.toNat length) := by
  unfold Tx.Begin at h
  split_ifs at h
  injection h with h
  subst h
  exact ⟨rfl, rfl⟩

/-- A concrete open transaction (the state `Tx.Begin [1, 2] 0 2`
returns). -/
def sampleTx : Tx :=
  { original := [1, 2], lowOffset := 0, highOffset := 2, snapshot := some [1, 2] }

/-- C5 witness: the theorem at a concrete transaction. -/
theorem tx_reads_snapshot_not_original_witness :
    Tx.ReadAt { sampleTx with original := [9, 9] } [0] 0 = Tx.ReadAt sampleTx [0] 0
    ∧ sampleTx.snapshot = some (readBytes [1, 2] 0 2) :=
  tx_reads_snapshot_not_original [1, 2] [9, 9] 0 2 sampleTx rfl [0] 0

/-- The open-phase write trace: a sequence of `Tx.WriteAt` calls applied
to a transaction; each call updates only the transaction state. -/
def applyWrites (tx : Tx) : List (Bytes × Int) → Tx
  | [] => tx
  | w :: rest => applyWrites (Tx.WriteAt tx w.1 w.2).2 rest

theorem original_WriteAt (tx : Tx) (buf : Bytes) (o : Int) :
    (Tx.WriteAt tx buf o).2.original = tx.original := by
  unfold Tx.WriteAt
  split
  · rfl
  · split
    · rfl
    · split
      · rfl
      · rfl

theorem isSome_snapshot_WriteAt (tx : Tx) (buf : Bytes) (o : Int) :
    (Tx.WriteAt tx buf o).2.snapshot.isSome = tx.snapshot.isSome := by
  unfold Tx.WriteAt
  split
  · rfl
  · rename_i snap heq
    split
    · rfl
    · split
      · rfl
      · simp [heq]

theorem original_applyWrites (ws : List (Bytes × Int)) (tx : Tx) :
    (applyWrites tx ws).original = tx.original := by
  induction ws generalizing tx with
  | nil => rfl
  | cons w rest ih => rw [applyWrites, ih, original_WriteAt]

theorem isSome_applyWrites (ws : List (Bytes × Int)) (tx : Tx) :
    (applyWrites tx ws).snapshot.isSome = tx.snapshot.isSome := by
  induction ws generalizing tx with
  | nil => rfl
  | cons w rest ih => rw [applyWrites, ih, isSome_snapshot_WriteAt]

/-- C6: writes in the open phase touch only the snapshot, and `Rollback`
releases the snapshot without touching the original: after any sequence
of `Tx.WriteAt` calls on a transaction begun over `data`, `Rollback`
succeeds and the original store is byte-for-byte `data`, its state
immediately before `Begin`. -/
theorem rollback_leaves_original_unchanged (data : Bytes) (offset : Int) (length : Nat)
    (tx : Tx) (h : Tx.Begin data offset length = .ok tx) (ws : List (Bytes × Int)) :
    (Tx.Rollback (applyWrites tx ws)).1 = .ok
    ∧ (Tx.Rollback (applyWrites tx ws)).2.original = data := by
  have horig : tx.original = data := by
    unfold Tx.Begin at h
    split_ifs at h
    injection h with h
    subst h
    rfl
  have hsome : tx.snapshot.isSome = true := by
    unfold Tx.Begin at h
    split_ifs at h
    injection h with h
    subst h
    rfl
  have h1 : (applyWrites tx ws).original = data := by
    rw [original_applyWrites, horig]
  have h2 : (applyWrites tx ws).snapshot.isSome = true := by
    rw [isSome_applyWrites, hsome]
  obtain ⟨snap, hsnap⟩ := Option.isSome_iff_exists.mp h2
  constructor
  · simp only [Tx.Rollback, hsnap]
  · simp only [Tx.Rollback, hsnap]
    exact h1

/-- A concrete open transaction for the rollback witness. -/
def sampleTxR : Tx :=
  { original := [1, 2], lowOffset := 0, highOffset := 2, snapshot := some [1, 2] }

/-- C6 witness: the theorem at a concrete transaction and write list. -/
theorem rollback_leaves_original_unchanged_witness :
    (Tx.Rollback (applyWrites sampleTxR [([5], 0)])).1 = .ok
    ∧ (Tx.Rollback (applyWrites sampleTxR [([5], 0)])).2.original = [1, 2] :=
  rollback_leaves_original_unchanged [1, 2] 0 2 sampleTxR rfl [([5], 0)]

/-- C4: `Commit` on an open transaction succeeds once, copying the
snapshot into `original[lowOffset:highOffset]`; a second `Commit` fails
with the closed error and changes nothing, so the original reflects the
snapshot exactly once. -/
theorem commit_applies_snapshot_once (tx : Tx) (snap : Bytes)
    (hs : tx.snapshot = some snap)
    (hlo : 0 ≤ tx.lowOffset)
    (hhi : tx.highOffset = tx.lowOffset + snap.length)
    (hlen : tx.highOffset ≤ (tx.original.length : Int)) :
    Tx.Commit tx =
      (.ok, { tx with original := writeBytes tx.original tx.lowOffset.toNat snap,
                      snapshot := none })
    ∧ Tx.Commit (Tx.Commit tx).2 = (.err .closed, (Tx.Commit tx).2)
    ∧ readBytes (Tx.Commit tx).2.original tx.lowOffset.toNat snap.length = snap := by
  have hb : tx.lowOffset.toNat + snap.length ≤ tx.original.length := by omega
  have h1 : Tx.Commit tx = (.ok, { tx with
      original := writeBytes tx.original tx.lowOffset.toNat snap, snapshot := none }) := by
    have hn : min (tx.highOffset - tx.lowOffset).toNat snap.length = snap.length := by
      omega
    unfold Tx.Commit
    rw [hs]
    simp only [if_neg (show ¬(tx.lowOffset < 0 ∨ tx.highOffset < tx.lowOffset ∨
      (tx.original.length : Int) < tx.highOffset) by omega), hn, List.take_length]
    rfl
  refine ⟨h1, ?_, ?_⟩
  · rw [h1]
    rfl
  · rw [h1]
    exact readBytes_writeBytes_self tx.original snap tx.lowOffset.toNat hb

/-- A concrete open transaction for the commit witness: window `[1, 3)`
over `[1, 2, 3]` with a modified snapshot. -/
def sampleTxC : Tx :=
  { original := [1, 2, 3], lowOffset := 1, highOffset := 3, snapshot := some [9, 8] }

/-- C4 witness: the theorem at a concrete open transaction. -/
theorem commit_applies_snapshot_once_witness :
    Tx.Commit sampleTxC =
      (.ok, { sampleTxC with original := writeBytes [1, 2, 3] 1 [9, 8], snapshot := none })
    ∧ Tx.Commit (Tx.Commit sampleTxC).2 = (.err .closed, (Tx.Commit sampleTxC).2)
    ∧ readBytes (Tx.Commit sampleTxC).2.original 1 2 = [9, 8] :=
  commit_applies_snapshot_once sampleTxC [9, 8] rfl (by decide) (by decide) (by decide)

/-- C9: after the first `Close` of an open mapping, every operation —
`ReadAt`, `WriteAt`, `Lock`, `Unlock`, `Sync`, `Begin` and a second
`Close` — fails with the closed error, and the second `Close` issues no
release syscall at all and leaves the state unchanged. -/
theorem close_then_everything_reports_closed (m : Mapping) (mem : Bytes)
    (h : m.memory = some mem) :
    (Mapping.Close m).1 = .ok ()
    ∧ (Mapping.Close m).2.1.memory = none
    ∧ Mapping.Close (Mapping.Close m).2.1 = (.error .closed, (Mapping.Close m).2.1, [])
    ∧ (∀ buf o, Mapping.ReadAt (Mapping.Close m).2.1 buf o = .err .closed)
    ∧ (∀ buf o, Mapping.WriteAt (Mapping.Close m).2.1 buf o
        = (.err .closed, (Mapping.Close m).2.1))
    ∧ Mapping.Lock (Mapping.Close m).2.1 = (.error .closed, (Mapping.Close m).2.1, [])
    ∧ Mapping.Unlock (Mapping.Close m).2.1 = (.error .closed, (Mapping.Close m).2.1, [])
    ∧ Mapping.Sync (Mapping.Close m).2.1 = (.error .closed, (Mapping.Close m).2.1, [])
    ∧ (∀ o len, Mapping.Begin (Mapping.Close m).2.1 o len = .merr .closed) := by
  have h1 : (Mapping.Close m).1 = .ok () := by
    simp only [Mapping.Close, h]
  have hc : (Mapping.Close m).2.1 =
      { writable := false, executable := false, locked := false, memory := none } := by
    simp only [Mapping.Close, h]
  rw [hc]
  exact ⟨h1, rfl, rfl, fun _ _ => rfl, fun _ _ => rfl, rfl, rfl, rfl, fun _ _ => rfl⟩

/-- A concrete open, writable, locked mapping. -/
def sampleMapping : Mapping :=
  { writable := true, executable := false, locked := true, memory := some [7] }

/-- C9 witness: the theorem at a concrete open (writable, locked)
mapping. -/
theorem close_then_everything_reports_closed_witness :
    (Mapping.Close sampleMapping).1 = .ok ()
    ∧ (Mapping.Close sampleMapping).2.1.memory = none
    ∧ Mapping.Close (Mapping.Close sampleMapping).2.1
      = (.error .closed, (Mapping.Close sampleMapping).2.1, [])
    ∧ (∀ buf o, Mapping.ReadAt (Mapping.Close sampleMapping).2.1 buf o = .err .closed)
    ∧ (∀ buf o, Mapping.WriteAt (Mapping.Close sampleMapping).2.1 buf o
        = (.err .closed, (Mapping.Close sampleMapping).2.1))
    ∧ Mapping.Lock (Mapping.Close sampleMapping).2.1
      = (.error .closed, (Mapping.Close sampleMapping).2.1, [])
    ∧ Mapping.Unlock (Mapping.Close sampleMapping).2.1
      = (.error .closed, (Mapping.Close sampleMapping).2.1, [])
    ∧ Mapping.Sync (Mapping.Close sampleMapping).2.1
      = (.error .closed, (Mapping.Close sampleMapping).2.1, [])
    ∧ (∀ o len, Mapping.Begin (Mapping.Close sampleMapping).2.1 o len = .merr .closed) :=
  close_then_everything_reports_closed sampleMapping [7] rfl

theorem storeWriteAt_in_bounds (mem buf : Bytes) (offset : Int)
    (h0 : 0 ≤ offset) (h1 : offset.toNat + buf.length ≤ mem.length)
    (h2 : mem.length ≤ maxIntNat) :
    storeWriteAt mem buf offset = .ok (writeBytes mem offset.toNat buf) := by
  have hm64 : maxInt64 = 9223372036854775807 := by norm_num [maxInt64]
  have hmn : maxIntNat = 9223372036854775807 := by norm_num [maxIntNat]
  unfold storeWriteAt
  rw [if_neg (by omega)]

theorem storeReadAt_in_bounds (mem : Bytes) (len : Nat) (offset : Int)
    (h0 : 0 ≤ offset) (h1 : offset.toNat + len ≤ mem.length)
    (h2 : mem.length ≤ maxIntNat) :
    storeReadAt mem len offset = .ok (readBytes mem offset.toNat len) := by
  have hm64 : maxInt64 = 9223372036854775807 := by norm_num [maxInt64]
  have hmn : maxIntNat = 9223372036854775807 := by norm_num [maxIntNat]
  unfold storeReadAt
  rw [if_neg (by omega)]

theorem storeReadAt_ok_inv (mem : Bytes) (len : Nat) (offset : Int) (out : Bytes)
    (h : storeReadAt mem len offset = .ok out) :
    0 ≤ offset ∧ offset ≤ maxInt64 - len ∧ offset.toNat + len ≤ mem.length
    ∧ out = readBytes mem offset.toNat len := by
  unfold storeReadAt at h
  split_ifs at h with hc
  injection h with h
  exact ⟨by omega, by omega, by omega, h.symm⟩

theorem storeWriteAt_ok_inv (mem buf : Bytes) (offset : Int) (out : Bytes)
    (h : storeWriteAt mem buf offset = .ok out) :
    0 ≤ offset ∧ offset ≤ maxInt64 - buf.length ∧ offset.toNat + buf.length ≤ mem.length
    ∧ out = writeBytes mem offset.toNat buf := by
  unfold storeWriteAt at h
  split_ifs at h with hc
  injection h with h
  exact ⟨by omega, by omega, by omega, h.symm⟩

/-- C7: `Set(k, uint8 a, uint16 b, uint32 c)` followed by `Get(k)` with
the same three types returns `(a, b, c)`, and the seven bytes `[k, k+7)`
hold `a`, then `b`, then `c` packed back-to-back, each multi-byte value
big-endian, with no padding. -/
theorem segment_set_get_sequential_packing (mem : Bytes) (k : Int) (a b c : Nat)
    (ha : a < 256) (hb : b < 256 ^ 2) (hc : c < 256 ^ 4)
    (hk : 0 ≤ k) (hfit : k.toNat + 7 ≤ mem.length) (hmax : mem.length ≤ maxIntNat) :
    ∃ mem7,
      Segment.Set mem k [.u8 a, .u16 b, .u32 c] = .ok mem7
      ∧ Segment.Get mem7 k [.u8, .u16, .u32] = .ok [a, b, c]
      ∧ readBytes mem7 k.toNat 7 = a :: (putBE 2 b ++ putBE 4 c) := by
  have ea : a % 256 ^ 1 = a := by rw [pow_one]; exact Nat.mod_eq_of_lt ha
  have eb : b % 256 ^ 2 = b := Nat.mod_eq_of_lt hb
  have ec : c % 256 ^ 4 = c := Nat.mod_eq_of_lt hc
  have t1 : (k + 1).toNat = k.toNat + 1 := by omega
  have t3 : (k + 1 + 2).toNat = k.toNat + 3 := by omega
  have p1 : putBE 1 a = [a] := by
    simp [putBE, Nat.mod_eq_of_lt ha]
  have lb1 : (putBE 1 a).length = 1 := length_putBE 1 a
  have lb2 : (putBE 2 b).length = 2 := length_putBE 2 b
  have lb4 : (putBE 4 c).length = 4 := length_putBE 4 c
  -- the three intermediate stores
  have l1 : (writeBytes mem k.toNat (putBE 1 a)).length = mem.length :=
    length_writeBytes mem (putBE 1 a) k.toNat (by omega)
  have l2 : (writeBytes (writeBytes mem k.toNat (putBE 1 a)) (k.toNat + 1)
      (putBE 2 b)).length = mem.length := by
    rw [length_writeBytes _ (putBE 2 b) _ (by omega), l1]
  have l3 : (writeBytes (writeBytes (writeBytes mem k.toNat (putBE 1 a)) (k.toNat + 1)
      (putBE 2 b)) (k.toNat + 3) (putBE 4 c)).length = mem.length := by
    rw [length_writeBytes _ (putBE 4 c) _ (by omega), l2]
  -- write steps
  have s1 : storeWriteAt mem (putBE 1 (a % 256 ^ 1)) k =
      .ok (writeBytes mem k.toNat (putBE 1 a)) := by
    rw [ea]
    exact storeWriteAt_in_bounds mem (putBE 1 a) k hk (by omega) hmax
  have s2 : storeWriteAt (writeBytes mem k.toNat (putBE 1 a)) (putBE 2 (b % 256 ^ 2))
      (k + 1) = .ok (writeBytes (writeBytes mem k.toNat (putBE 1 a)) (k.toNat + 1)
        (putBE 2 b)) := by
    rw [eb, storeWriteAt_in_bounds _ (putBE 2 b) (k + 1) (by omega)
      (by rw [t1]; omega) (by omega), t1]
  have s3 : storeWriteAt (writeBytes (writeBytes mem k.toNat (putBE 1 a)) (k.toNat + 1)
      (putBE 2 b)) (putBE 4 (c % 256 ^ 4)) (k + 1 + 2) =
      .ok (writeBytes (writeBytes (writeBytes mem k.toNat (putBE 1 a)) (k.toNat + 1)
        (putBE 2 b)) (k.toNat + 3) (putBE 4 c)) := by
    rw [ec, storeWriteAt_in_bounds _ (putBE 4 c) (k + 1 + 2) (by omega)
      (by rw [t3]; omega) (by omega), t3]
  -- window contents of the final store
  have rA : readBytes (writeBytes (writeBytes (writeBytes mem k.toNat (putBE 1 a))
      (k.toNat + 1) (putBE 2 b)) (k.toNat + 3) (putBE 4 c)) k.toNat 1 = putBE 1 a := by
    rw [readBytes_writeBytes_of_le _ (putBE 4 c) (k.toNat + 3) k.toNat 1
        (by omega) (by omega),
      readBytes_writeBytes_of_le _ (putBE 2 b) (k.toNat + 1) k.toNat 1
        (by omega) (by omega)]
    have := readBytes_writeBytes_self mem (putBE 1 a) k.toNat (by omega)
    rw [lb1] at this
    exact this
  have rB : readBytes (writeBytes (writeBytes (writeBytes mem k.toNat (putBE 1 a))
      (k.toNat + 1) (putBE 2 b)) (k.toNat + 3) (putBE 4 c)) (k.toNat + 1) 2 =
      putBE 2 b := by
    rw [readBytes_writeBytes_of_le _ (putBE 4 c) (k.toNat + 3) (k.toNat + 1) 2
        (by omega) (by omega)]
    have := readBytes_writeBytes_self (writeBytes mem k.toNat (putBE 1 a)) (putBE 2 b)
      (k.toNat + 1) (by omega)
    rw [lb2] at this
    exact this
  have rC : readBytes (writeBytes (writeBytes (writeBytes mem k.toNat (putBE 1 a))
      (k.toNat + 1) (putBE 2 b)) (k.toNat + 3) (putBE 4 c)) (k.toNat + 3) 4 =
      putBE 4 c := by
    have := readBytes_writeBytes_self (writeBytes (writeBytes mem k.toNat (putBE 1 a))
      (k.toNat + 1) (putBE 2 b)) (putBE 4 c) (k.toNat + 3) (by omega)
    rw [lb4] at this
    exact this
  -- read steps
  have g1 : storeReadAt (writeBytes (writeBytes (writeBytes mem k.toNat (putBE 1 a))
      (k.toNat + 1) (putBE 2 b)) (k.toNat + 3) (putBE 4 c)) 1 k = .ok (putBE 1 a) := by
    rw [storeReadAt_in_bounds _ 1 k hk (by omega) (by omega), rA]
  have g2 : storeReadAt (writeBytes (writeBytes (writeBytes mem k.toNat (putBE 1 a))
      (k.toNat + 1) (putBE 2 b)) (k.toNat + 3) (putBE 4 c)) 2 (k + 1) =
      .ok (putBE 2 b) := by
    rw [storeReadAt_in_bounds _ 2 (k + 1) (by omega) (by rw [t1]; omega) (by omega),
      t1, rB]
  have g3 : storeReadAt (writeBytes (writeBytes (writeBytes mem k.toNat (putBE 1 a))
      (k.toNat + 1) (putBE 2 b)) (k.toNat + 3) (putBE 4 c)) 4 (k + 1 + 2) =
      .ok (putBE 4 c) := by
    rw [storeReadAt_in_bounds _ 4 (k + 1 + 2) (by omega) (by rw [t3]; omega) (by omega),
      t3, rC]
  -- decoded values
  have d1 : decBE (putBE 1 a) = a := by rw [decBE_putBE]; exact ea
  have d2 : decBE (putBE 2 b) = b := by rw [decBE_putBE]; exact eb
  have d3 : decBE (putBE 4 c) = c := by rw [decBE_putBE]; exact ec
  refine ⟨writeBytes (writeBytes (writeBytes mem k.toNat (putBE 1 a)) (k.toNat + 1)
    (putBE 2 b)) (k.toNat + 3) (putBE 4 c), ?_, ?_, ?_⟩
  · simp only [Segment.Set, Val.size, Val.ty, Ty.size, Val.val, Val.M,
      Nat.cast_one, Nat.cast_ofNat, s1, s2, s3]
  · simp only [Segment.Get, Ty.size, Nat.cast_one, Nat.cast_ofNat, g1, g2, g3, d1, d2, d3]
  · rw [show (7 : Nat) = 1 + 6 from rfl,
      readBytes_split _ k.toNat 1 6 (by omega),
      show (6 : Nat) = 2 + 4 from rfl,
      readBytes_split _ (k.toNat + 1) 2 4 (by omega),
      show k.toNat + 1 + 2 = k.toNat + 3 from rfl,
      rA, rB, rC, p1]
    rfl

/-- C7 witness: the theorem at a concrete store, offset and values. -/
theorem segment_set_get_sequential_packing_witness :
    ∃ mem7,
      Segment.Set [0, 0, 0, 0, 0, 0, 0, 0] 1 [.u8 1, .u16 2, .u32 3] = .ok mem7
      ∧ Segment.Get mem7 1 [.u8, .u16, .u32] = .ok [1, 2, 3]
      ∧ readBytes mem7 (Int.toNat 1) 7 = 1 :: (putBE 2 2 ++ putBE 4 3) :=
  segment_set_get_sequential_packing [0, 0, 0, 0, 0, 0, 0, 0] 1 1 2 3
    (by norm_num) (by norm_num) (by norm_num) (by norm_num) (by norm_num)
    (by norm_num [maxIntNat])

/-- The number of bytes a list of slot types occupies in a sequential
sweep. -/
def sweepSize : List Ty → Nat
  | [] => 0
  | t :: rest => t.size + sweepSize rest

/-- Follows the spec words for `ScanUint`: the sequential-offset sweep,
decoding each window little-endian — slot `k+1` begins immediately after
slot `k`. -/
def specSweepLE (data : Bytes) (o : Nat) : List Ty → List Nat
  | [] => []
  | t :: rest => decLE (readBytes data o t.size) :: specSweepLE data (o + t.size) rest

/-- Follows the spec words for the driver-based `Get`: the same
sequential-offset sweep, decoding each window big-endian. -/
def specSweepBE (data : Bytes) (o : Nat) : List Ty → List Nat
  | [] => []
  | t :: rest => decBE (readBytes data o t.size) :: specSweepBE data (o + t.size) rest

theorem scanUintLoop_in_bounds (ts : List Ty) (data : Bytes) (o : Int)
    (h0 : 0 ≤ o) (hfit : o.toNat + sweepSize ts ≤ data.length)
    (hmax : data.length ≤ maxIntNat) :
    scanUintLoop data o ts = .ok (specSweepLE data o.toNat ts) := by
  induction ts generalizing o with
  | nil => rfl
  | cons t rest ih =>
    have hm64 : maxInt64 = 9223372036854775807 := by norm_num [maxInt64]
    have hmn : maxIntNat = 9223372036854775807 := by norm_num [maxIntNat]
    simp only [sweepSize] at hfit
    have ht : (o + (t.size : Int)).toNat = o.toNat + t.size := by omega
    rw [scanUintLoop, if_neg (by omega),
      ih (o + t.size) (by omega) (by rw [ht]; omega), ht]
    rfl

theorem get_in_bounds (ts : List Ty) (mem : Bytes) (o : Int)
    (h0 : 0 ≤ o) (hfit : o.toNat + sweepSize ts ≤ mem.length)
    (hmax : mem.length ≤ maxIntNat) :
    Segment.Get mem o ts = .ok (specSweepBE mem o.toNat ts) := by
  induction ts generalizing o with
  | nil => rfl
  | cons t rest ih =>
    simp only [sweepSize] at hfit
    have ht : (o + (t.size : Int)).toNat = o.toNat + t.size := by omega
    rw [Segment.Get, storeReadAt_in_bounds mem t.size o h0 (by omega) hmax,
      ih (o + t.size) (by omega) (by rw [ht]; omega), ht]
    rfl

/-- C8: over the same bytes, `ScanUint` of the pointer-based segment
performs exactly the sequential-offset sweep of the driver-based `Get` —
each slot advancing the offset by its byte width — but decodes each
window little-endian where `Get` decodes big-endian; consequently on the
stored bytes `[0, 1]` they return different values (256 versus 1) for
the same offset and width. -/
theorem scanUint_same_sweep_but_little_endian (data : Bytes) (k : Int) (ts : List Ty)
    (hk : 0 ≤ k) (hfit : k.toNat + sweepSize ts ≤ data.length)
    (hmax : data.length ≤ maxIntNat) :
    PtrSegment.ScanUint ⟨0, data⟩ k ts = .ok (specSweepLE data k.toNat ts)
    ∧ Segment.Get data k ts = .ok (specSweepBE data k.toNat ts)
    ∧ PtrSegment.ScanUint ⟨0, [0, 1]⟩ 0 [.u16] = .ok [256]
    ∧ Segment.Get [0, 1] 0 [.u16] = .ok [1]
    ∧ (256 : Nat) ≠ 1 := by
  refine ⟨?_, get_in_bounds ts data k hk hfit hmax, rfl, rfl, by norm_num⟩
  simp only [PtrSegment.ScanUint]
  rw [if_neg (by omega), sub_zero]
  exact scanUintLoop_in_bounds ts data k hk hfit hmax

/-- C8 witness: the theorem at the concrete disagreeing bytes. -/
theorem scanUint_same_sweep_but_little_endian_witness :
    PtrSegment.ScanUint ⟨0, [0, 1]⟩ 0 [.u16] = .ok (specSweepLE [0, 1] (Int.toNat 0) [.u16])
    ∧ Segment.Get [0, 1] 0 [.u16] = .ok (specSweepBE [0, 1] (Int.toNat 0) [.u16])
    ∧ PtrSegment.ScanUint ⟨0, [0, 1]⟩ 0 [.u16] = .ok [256]
    ∧ Segment.Get [0, 1] 0 [.u16] = .ok [1]
    ∧ (256 : Nat) ≠ 1 :=
  scanUint_same_sweep_but_little_endian [0, 1] 0 [.u16] (by norm_num)
    (by norm_num [sweepSize, Ty.size]) (by norm_num [maxIntNat])

theorem take_writeBytes (s b : Bytes) (o n : Nat)
    (h : o + b.length ≤ s.length) (hn : n ≤ o) :
    (writeBytes s o b).take n = s.take n := by
  apply List.ext_getElem?
  intro i
  rw [List.getElem?_take, List.getElem?_take]
  by_cases hi : i < n
  · rw [if_pos hi, if_pos hi, getElem?_writeBytes s b o h, if_pos (by omega)]
  · rw [if_neg hi, if_neg hi]

theorem readBytes_eq_of_take_eq (s t : Bytes) (n o w : Nat)
    (h : s.take n = t.take n) (hn : o + w ≤ n) :
    readBytes s o w = readBytes t o w := by
  apply List.ext_getElem?
  intro i
  rw [getElem?_readBytes, getElem?_readBytes]
  by_cases hi : i < w
  · rw [if_pos hi, if_pos hi]
    have h1 := congrArg (fun l => l[o + i]?) h
    simp only [List.getElem?_take] at h1
    rw [if_pos (by omega), if_pos (by omega)] at h1
    exact h1
  · rw [if_neg hi, if_neg hi]

/-! ### The read-modify-write loop of `Inc` and `Dec` -/

/-- The loop shape shared by `Segment.Inc` and `Segment.Dec`: per slot,
read the window at the current offset, write `F d window` back at the
same offset, and advance by the slot width. -/
def segRMW (F : Val → Bytes → Bytes) (mem : Bytes) (offset : Int) :
    List Val → Except DriverErr Bytes
  | [] => .ok mem
  | d :: rest =>
    match storeReadAt mem d.size offset with
    | .error e => .error e
    | .ok buf =>
      match storeWriteAt mem (F d buf) offset with
      | .error e => .error e
      | .ok mem1 => segRMW F mem1 (offset + d.size) rest

/-- The slot update of `Inc`: big-endian decode, add the delta as a
`uintN`, re-encode. -/
def incF (d : Val) (buf : Bytes) : Bytes := putBE d.size (decBE buf + d.val % d.M)

/-- The slot update of `Dec`: big-endian decode, subtract the delta with
`uintN` wrap-around, re-encode. -/
def decF (d : Val) (buf : Bytes) : Bytes :=
  putBE d.size (decBE buf + (d.M - d.val % d.M))

theorem Inc_eq_segRMW (ds : List Val) (mem : Bytes) (offset : Int) :
    Segment.Inc mem offset ds = segRMW incF mem offset ds := by
  induction ds generalizing mem offset with
  | nil => rfl
  | cons d rest ih => simp only [Segment.Inc, segRMW, incF, ih]

theorem Dec_eq_segRMW (ds : List Val) (mem : Bytes) (offset : Int) :
    Segment.Dec mem offset ds = segRMW decF mem offset ds := by
  induction ds generalizing mem offset with
  | nil => rfl
  | cons d rest ih => simp only [Segment.Dec, segRMW, decF, ih]

theorem length_segRMW (F : Val → Bytes → Bytes) (ds : List Val) :
    ∀ (mem out : Bytes) (offset : Int),
      segRMW F mem offset ds = .ok out → out.length = mem.length := by
  induction ds with
  | nil =>
    intro mem out offset h
    injection h with h
    rw [← h]
  | cons d rest ih =>
    intro mem out offset h
    rw [segRMW] at h
    cases hr : storeReadAt mem d.size offset with
    | error e => rw [hr] at h; exact Except.noConfusion h
    | ok buf =>
      simp only [hr] at h
      cases hw : storeWriteAt mem (F d buf) offset with
      | error e => rw [hw] at h; exact Except.noConfusion h
      | ok mem1 =>
        simp only [hw] at h
        obtain ⟨h0, hmx, h1, hm⟩ := storeWriteAt_ok_inv mem (F d buf) offset mem1 hw
        rw [ih mem1 out (offset + d.size) h, hm, length_writeBytes _ _ _ h1]

theorem take_segRMW (F : Val → Bytes → Bytes) (ds : List Val) :
    ∀ (mem out : Bytes) (offset : Int) (n : Nat),
      segRMW F mem offset ds = .ok out → (n : Int) ≤ offset →
      out.take n = mem.take n := by
  induction ds with
  | nil =>
    intro mem out offset n h hn
    injection h with h
    rw [← h]
  | cons d rest ih =>
    intro mem out offset n h hn
    rw [segRMW] at h
    cases hr : storeReadAt mem d.size offset with
    | error e => rw [hr] at h; exact Except.noConfusion h
    | ok buf =>
      simp only [hr] at h
      cases hw : storeWriteAt mem (F d buf) offset with
      | error e => rw [hw] at h; exact Except.noConfusion h
      | ok mem1 =>
        simp only [hw] at h
        obtain ⟨h0, hmx, h1, hm⟩ := storeWriteAt_ok_inv mem (F d buf) offset mem1 hw
        rw [ih mem1 out (offset + d.size) n h (by omega), hm]
        exact take_writeBytes mem (F d buf) offset.toNat n h1 (by omega)

theorem bytes_lt_segRMW (F : Val → Bytes → Bytes)
    (hF : ∀ d buf y, y ∈ F d buf → y < 256) (ds : List Val) :
    ∀ (mem out : Bytes) (offset : Int),
      segRMW F mem offset ds = .ok out → (∀ y ∈ mem, y < 256) →
      ∀ y ∈ out, y < 256 := by
  induction ds with
  | nil =>
    intro mem out offset h hmem
    injection h with h
    rw [← h]
    exact hmem
  | cons d rest ih =>
    intro mem out offset h hmem
    rw [segRMW] at h
    cases hr : storeReadAt mem d.size offset with
    | error e => rw [hr] at h; exact Except.noConfusion h
    | ok buf =>
      simp only [hr] at h
      cases hw : storeWriteAt mem (F d buf) offset with
      | error e => rw [hw] at h; exact Except.noConfusion h
      | ok mem1 =>
        simp only [hw] at h
        obtain ⟨h0, hmx, h1, hm⟩ := storeWriteAt_ok_inv mem (F d buf) offset mem1 hw
        refine ih mem1 out (offset + d.size) h ?_
        intro y hy
        rw [hm] at hy
        rcases mem_writeBytes mem (F d buf) offset.toNat y hy with hy | hy
        · exact hmem y hy
        · exact hF d buf y hy

theorem segRMW_writeBytes_comm (F : Val → Bytes → Bytes) (ds : List Val) :
    ∀ (mem b : Bytes) (x : Nat) (offset : Int),
      (x + b.length : Int) ≤ offset → x + b.length ≤ mem.length →
      segRMW F (writeBytes mem x b) offset ds
        = (segRMW F mem offset ds).map (fun t => writeBytes t x b) := by
  induction ds with
  | nil => intro mem b x offset hxo hxs; rfl
  | cons d rest ih =>
    intro mem b x offset hxo hxs
    have hlen : (writeBytes mem x b).length = mem.length := length_writeBytes mem b x hxs
    rw [segRMW, segRMW]
    have hrd : storeReadAt (writeBytes mem x b) d.size offset
        = storeReadAt mem d.size offset := by
      unfold storeReadAt
      rw [hlen]
      split_ifs with hc
      · rfl
      · rw [readBytes_writeBytes_of_ge mem b x offset.toNat d.size hxs (by omega)]
    rw [hrd]
    cases hr : storeReadAt mem d.size offset with
    | error e => rfl
    | ok buf =>
      have hww : storeWriteAt (writeBytes mem x b) (F d buf) offset
          = (storeWriteAt mem (F d buf) offset).map (fun t => writeBytes t x b) := by
        unfold storeWriteAt
        rw [hlen]
        split_ifs with hc
        · rfl
        · show Except.ok _ = Except.ok _
          rw [writeBytes_comm mem b (F d buf) x offset.toNat (by omega) (by omega)]
      simp only [hww]
      cases hw : storeWriteAt mem (F d buf) offset with
      | error e => rfl
      | ok mem1 =>
        obtain ⟨h0, hmx, h1, hm⟩ := storeWriteAt_ok_inv mem (F d buf) offset mem1 hw
        show segRMW F (writeBytes mem1 x b) (offset + d.size) rest
          = (segRMW F mem1 (offset + d.size) rest).map (fun t => writeBytes t x b)
        refine ih mem1 b x (offset + d.size) (by omega) ?_
        rw [hm, length_writeBytes _ _ _ h1]
        omega

theorem segRMW_inc_dec (ds : List Val) :
    ∀ (mem out : Bytes) (offset : Int),
      (∀ y ∈ mem, y < 256) →
      segRMW incF mem offset ds = .ok out →
      segRMW decF out offset ds = .ok mem := by
  induction ds with
  | nil =>
    intro mem out offset hmem h
    injection h with h
    rw [segRMW, ← h]
  | cons d rest ih =>
    intro mem out offset hmem h
    rw [segRMW] at h
    cases hr : storeReadAt mem d.size offset with
    | error e => rw [hr] at h; exact Except.noConfusion h
    | ok buf =>
      simp only [hr] at h
      cases hw : storeWriteAt mem (incF d buf) offset with
      | error e => rw [hw] at h; exact Except.noConfusion h
      | ok mem1 =>
        simp only [hw] at h
        obtain ⟨ho0, homx, hob, hbuf⟩ := storeReadAt_ok_inv mem d.size offset buf hr
        obtain ⟨_, _, how, hm1⟩ := storeWriteAt_ok_inv mem (incF d buf) offset mem1 hw
        have linc : (incF d buf).length = d.size := length_putBE _ _
        have ldec : (decF d (incF d buf)).length = d.size := length_putBE _ _
        have hbl : buf.length = d.size := by
          rw [hbuf]; exact length_readBytes mem offset.toNat d.size hob
        have hbb : ∀ y ∈ buf, y < 256 := by
          intro y hy
          rw [hbuf] at hy
          exact hmem y (List.mem_of_mem_drop (List.mem_of_mem_take hy))
        have hMpos : 0 < d.M := Nat.pos_pow_of_pos _ (by norm_num)
        have hx : decBE buf < d.M := by
          have h2 := decBE_lt buf hbb
          rw [hbl] at h2
          exact h2
        have he : d.val % d.M < d.M := Nat.mod_lt _ hMpos
        have hlen1 : mem1.length = mem.length := by
          rw [hm1]; exact length_writeBytes _ _ _ how
        have hout_len : out.length = mem.length := by
          rw [length_segRMW incF rest mem1 out (offset + d.size) h, hlen1]
        have hmem1 : ∀ y ∈ mem1, y < 256 := by
          intro y hy
          rw [hm1] at hy
          rcases mem_writeBytes mem (incF d buf) offset.toNat y hy with hy | hy
          · exact hmem y hy
          · exact mem_putBE_lt _ _ y hy
        -- the window of `out` at the current offset still holds the
        -- incremented bytes: the remaining slots live strictly above it
        have hwin : readBytes out offset.toNat d.size = incF d buf := by
          have htake : out.take (offset.toNat + d.size) = mem1.take (offset.toNat + d.size) :=
            take_segRMW incF rest mem1 out (offset + d.size)
              (offset.toNat + d.size) h (by omega)
          rw [readBytes_eq_of_take_eq out mem1 (offset.toNat + d.size) offset.toNat d.size
            htake (le_refl _), hm1]
          have h2 := readBytes_writeBytes_self mem (incF d buf) offset.toNat how
          rw [linc] at h2
          exact h2
        -- the decrement restores the original window bytes
        have hval : decF d (incF d buf) = buf := by
          unfold decF incF
          rw [decBE_putBE]
          calc putBE d.size ((decBE buf + d.val % d.M) % 256 ^ d.size
                + (d.M - d.val % d.M))
              = putBE d.size (decBE buf) := by
                apply putBE_congr
                have hMeq : (d.M : Nat) = 256 ^ d.size := rfl
                rw [← hMeq, Nat.mod_add_mod,
                  show decBE buf + d.val % d.M + (d.M - d.val % d.M)
                    = decBE buf + d.M from by omega,
                  Nat.add_mod_right]
            _ = buf := by
                rw [← hbl]
                exact putBE_decBE buf hbb
        -- one `Dec` slot on `out`
        rw [segRMW]
        have hro : storeReadAt out d.size offset = .ok (incF d buf) := by
          unfold storeReadAt
          rw [if_neg (by rw [hout_len]; omega), hwin]
        rw [hro]
        have hwo : storeWriteAt out (decF d (incF d buf)) offset
            = .ok (writeBytes out offset.toNat buf) := by
          unfold storeWriteAt
          rw [if_neg (by rw [ldec, hout_len]; omega), hval]
        simp only [hwo]
        -- the remaining `Dec` slots commute with the restored window
        rw [segRMW_writeBytes_comm decF rest out buf offset.toNat (offset + d.size)
          (by omega) (by rw [hout_len]; omega)]
        rw [ih mem1 out (offset + d.size) hmem1 h]
        rw [hm1]
        show Except.ok (writeBytes (writeBytes mem offset.toNat (incF d buf))
          offset.toNat buf) = Except.ok mem
        rw [writeBytes_writeBytes_self mem (incF d buf) buf offset.toNat how
          (by rw [linc, hbl]), hbuf,
          writeBytes_readBytes_self mem offset.toNat d.size hob]

/-- C10: for every byte store, offset and delta list for which all the
underlying reads and writes succeed, `Inc(offset, deltas...)` followed by
`Dec(offset, deltas...)` leaves every stored byte unchanged: each slot
adds and then subtracts modulo `2^width` on the big-endian value, exact
inverses even when the addition wraps. -/
theorem inc_then_dec_restores_store (ds : List Val) (mem out : Bytes) (offset : Int)
    (hmem : ∀ y ∈ mem, y < 256)
    (h : Segment.Inc mem offset ds = .ok out) :
    Segment.Dec out offset ds = .ok mem := by
  rw [Inc_eq_segRMW] at h
  rw [Dec_eq_segRMW]
  exact segRMW_inc_dec ds mem out offset hmem h

/-- C10 witness: incrementing `(uint16, uint8)` slots across a wrap-around
and then decrementing restores the store. -/
theorem inc_then_dec_restores_store_witness :
    Segment.Dec [0, 0, 1, 7] 0 [.u16 1, .u8 2] = .ok [255, 255, 255, 7] :=
  inc_then_dec_restores_store [.u16 1, .u8 2] [255, 255, 255, 7] [0, 0, 1, 7] 0
    (by decide) rfl

end GoBio
